import Mathlib

/-!
Verification of the `fuh-rs` repository: a fold-based combinator library
(`src/lib.rs`, restated in `src/paper/mod.rs`) and a small register
virtual machine (`src/virtual_machine/mod.rs`).

Shallow embedding: Rust iterators become Lean lists consumed left to right;
the `for` loop of `fold` becomes structural recursion threading the
accumulator; `Alpha::default()` becomes `Inhabited.default` (for `Int`,
which models the machine-integer instantiations, `default = 0`);
array indexing that can panic in Rust is modelled with `Option`
(`none` = panic).
-/

namespace Fuh

/-- Rust `fold` from `src/lib.rs`: `let mut acc = acc; for x in iter { acc = f(x, acc) }; acc`. -/
def fold (f : β → α → α) (acc : α) : List β → α
  | [] => acc
  | x :: xs => fold f (f x acc) xs

/-- Rust `sum` from `src/lib.rs`: `fold(|x, acc| x.add(acc), Alpha::default(), iter)`. -/
def sum [Add α] [Inhabited α] (l : List α) : α :=
  fold (fun x acc => x + acc) default l

/-- Rust `product` from `src/lib.rs`: `fold(|x, acc| x.mul(acc), Alpha::default(), iter)`. -/
def product [Mul α] [Inhabited α] (l : List α) : α :=
  fold (fun x acc => x * acc) default l

/-- Rust `and` from `src/lib.rs`: `fold(|x, acc| x.bitand(acc), true, iter)`. -/
def and (l : List Bool) : Bool :=
  fold (fun x acc => x && acc) true l

/-- Rust `or` from `src/lib.rs`: `fold(|x, acc| x.bitor(acc), false, iter)`. -/
def or (l : List Bool) : Bool :=
  fold (fun x acc => x || acc) false l

/-- Rust `length` from `src/lib.rs`: `fold(|_, acc| 1 + acc, 0, iter)`. -/
def length (l : List α) : Nat :=
  fold (fun _ acc => 1 + acc) 0 l

/-- Rust `reverse` from `src/lib.rs`: fold inserting each element at index 0 of the
accumulator vector (`acc.insert(0, x)` = cons to the front). -/
def reverse (l : List α) : List α :=
  fold (fun x acc => x :: acc) [] l

end Fuh

namespace Paper

/-- Rust `fold` from `src/paper/mod.rs` (same body as the one in `src/lib.rs`). -/
def fold (f : β → α → α) (acc : α) : List β → α
  | [] => acc
  | x :: xs => fold f (f x acc) xs

/-- Rust `sum` from `src/paper/mod.rs`. -/
def sum [Add α] [Inhabited α] (l : List α) : α :=
  fold (fun x acc => x + acc) default l

/-- Rust `length` from `src/paper/mod.rs`. -/
def length (l : List α) : Nat :=
  fold (fun _ acc => 1 + acc) 0 l

/-- Rust `map` from `src/paper/mod.rs`: fold pushing `f x` onto the back of the
accumulator vector (`acc.push(f(x))`). -/
def map (f : α → β) (l : List α) : List β :=
  fold (fun x acc => acc ++ [f x]) [] l

/-- Rust `filter` from `src/paper/mod.rs`: fold pushing `x` onto the back of the
accumulator iff `f x` holds. -/
def filter (f : α → Bool) (l : List α) : List α :=
  fold (fun x acc => if f x then acc ++ [x] else acc) [] l

/-- Rust `sumlength` from `src/paper/mod.rs`:
`fold(|x, (sum, length)| (sum + x, length + 1), (Alpha::default(), 0), iter)`. -/
def sumlength [Add α] [Inhabited α] (l : List α) : α × Nat :=
  fold (fun x p => (p.1 + x, p.2 + 1)) (default, 0) l

end Paper

namespace VM

/-- Rust `BasicRegister` from `src/virtual_machine/mod.rs`: three register names. -/
inductive BasicRegister : Type
  | A
  | B
  | C
deriving DecidableEq

/-- Rust `impl From<BasicRegister> for usize`: the register-name → slot-index map. -/
def usizeFrom : BasicRegister → Nat
  | .A => 0
  | .B => 1
  | .C => 2

/-- Rust `BasicIsa<T, BasicRegister>` from `src/virtual_machine/mod.rs`. -/
inductive BasicIsa (T : Type) : Type
  | ADD (a b c : BasicRegister)
  | COPY (a b : BasicRegister)
  | SET (v : T) (b : BasicRegister)

/-- Rust `BasicCPU<T>`: a struct holding the `[T; 3]` register file. The fixed
length 3 of the Rust array is carried as a hypothesis on the list. -/
structure BasicCPU (T : Type) : Type where
  registers : List T
deriving DecidableEq

/-- Rust array read `registers[usize::from(r)]`, which panics out of bounds;
`none` models the panic. -/
def regRead (regs : List T) (r : BasicRegister) : Option T :=
  regs.get? (usizeFrom r)

/-- Rust array write `registers[usize::from(r)] = v`, which panics out of
bounds; `none` models the panic. -/
def regWrite (regs : List T) (r : BasicRegister) (v : T) : Option (List T) :=
  if usizeFrom r < regs.length then some (regs.set (usizeFrom r) v) else none

/-- Rust `BasicCPU::execute` from `src/virtual_machine/mod.rs`. Source reads happen
on the registers of `self` before the destination write, exactly as in the
Rust body (the RHS of the assignment is evaluated before the store). -/
def execute [Add T] (cpu : BasicCPU T) : BasicIsa T → Option (BasicCPU T)
  | .ADD a b c => do
      let va ← regRead cpu.registers a
      let vb ← regRead cpu.registers b
      let regs ← regWrite cpu.registers c (va + vb)
      pure ⟨regs⟩
  | .COPY a b => do
      let va ← regRead cpu.registers a
      let regs ← regWrite cpu.registers b va
      pure ⟨regs⟩
  | .SET v b => do
      let regs ← regWrite cpu.registers b v
      pure ⟨regs⟩

/-- Rust `CPU::executes`: `instructions.fold(self, |cpu, instruction| cpu.execute(instruction))`,
the panic of any step propagating as `none`. -/
def executes [Add T] (cpu : BasicCPU T) (l : List (BasicIsa T)) : Option (BasicCPU T) :=
  l.foldl (fun acc i => acc.bind (fun c => execute c i)) (some cpu)

/-- The destination register of an instruction (for stating frame conditions). -/
def destReg : BasicIsa T → BasicRegister
  | .ADD _ _ c => c
  | .COPY _ b => b
  | .SET _ b => b

/-- The value an instruction stores in its destination slot, read from the
pre-state registers (for stating the effect condition). -/
def destVal [Add T] (regs : List T) : BasicIsa T → Option T
  | .ADD a b _ => do
      let va ← regRead regs a
      let vb ← regRead regs b
      pure (va + vb)
  | .COPY a _ => regRead regs a
  | .SET v _ => some v

/-- Modelled from the spec (§4.2): batch execution is "equivalent to calling
`execute` once per instruction in order" — the sequential, one-at-a-time
application of `execute`, against which `executes` is compared. -/
def executeSeq [Add T] (cpu : BasicCPU T) : List (BasicIsa T) → Option (BasicCPU T)
  | [] => some cpu
  | i :: rest =>
    match execute cpu i with
    | none => none
    | some c => executeSeq c rest

end VM

/-! ### Helper lemmas about `Fuh.fold` -/

theorem Fuh.fold_eq_foldl (f : β → α → α) (acc : α) (l : List β) :
    Fuh.fold f acc l = l.foldl (fun a x => f x a) acc := by
  induction l generalizing acc with
  | nil => rfl
  | cons x xs ih => simp [Fuh.fold, List.foldl, ih]

theorem Fuh.fold_append (f : β → α → α) (acc : α) (l l' : List β) :
    Fuh.fold f acc (l ++ l') = Fuh.fold f (Fuh.fold f acc l) l' := by
  induction l generalizing acc with
  | nil => rfl
  | cons x xs ih => simp [Fuh.fold, ih]

theorem Fuh.fold_mul_zero (l : List Int) :
    Fuh.fold (fun x acc => x * acc) (0 : Int) l = 0 := by
  induction l with
  | nil => rfl
  | cons x xs ih => simpa [Fuh.fold] using ih

theorem Fuh.fold_and_eq (l : List Bool) :
    ∀ acc, Fuh.fold (fun x a => x && a) acc l = (acc && l.all id) := by
  induction l with
  | nil => intro acc; simp [Fuh.fold]
  | cons x xs ih =>
    intro acc
    simp only [Fuh.fold, ih, List.all_cons, id]
    cases acc <;> cases x <;> simp

theorem Fuh.fold_or_eq (l : List Bool) :
    ∀ acc, Fuh.fold (fun x a => x || a) acc l = (acc || l.any id) := by
  induction l with
  | nil => intro acc; simp [Fuh.fold]
  | cons x xs ih =>
    intro acc
    simp only [Fuh.fold, ih, List.any_cons, id]
    cases acc <;> cases x <;> simp

theorem Fuh.fold_cons_eq (l : List α) :
    ∀ acc, Fuh.fold (fun x a => x :: a) acc l = l.reverse ++ acc := by
  induction l with
  | nil => intro acc; rfl
  | cons x xs ih => intro acc; simp [Fuh.fold, ih]

theorem Fuh.reverse_eq (l : List α) : Fuh.reverse l = l.reverse := by
  simpa using Fuh.fold_cons_eq l []

/-! ### Claim theorems for the combinator library in `src/lib.rs` -/

/-- C3: `fold(f, seed, s)` threads the accumulator left to right, applying
`f` exactly once per element (it coincides with the standard left fold, and
folding one more element at the right end applies `f` exactly once more, to
that element and the accumulator so far); on the empty sequence it returns
the seed unchanged. -/
theorem c3_fold_functional_correctness :
    (∀ (α β : Type) (f : β → α → α) (acc : α), Fuh.fold f acc [] = acc) ∧
    (∀ (α β : Type) (f : β → α → α) (acc : α) (l : List β),
      Fuh.fold f acc l = l.foldl (fun a x => f x a) acc) ∧
    (∀ (α β : Type) (f : β → α → α) (acc : α) (l : List β) (x : β),
      Fuh.fold f acc (l ++ [x]) = f x (Fuh.fold f acc l)) := by
  refine ⟨fun _ _ _ _ => rfl, fun _ _ f acc l => Fuh.fold_eq_foldl f acc l, ?_⟩
  intro _ _ f acc l x
  rw [Fuh.fold_append]
  rfl

/-- C4: `product(s)` is the fold of multiplication seeded with the value
type's default; for machine integers (modelled by `Int`) that default is the
additive identity `0`, not the multiplicative identity `1` — so the product
of every integer sequence collapses to `0`. -/
theorem c4_product_seed_is_default_zero :
    ((default : Int) = 0 ∧ (default : Int) ≠ 1) ∧
    (∀ l : List Int, Fuh.product l = Fuh.fold (fun x acc => x * acc) (0 : Int) l) ∧
    (∀ l : List Int, Fuh.product l = 0) := by
  refine ⟨⟨rfl, by decide⟩, fun l => rfl, fun l => ?_⟩
  exact Fuh.fold_mul_zero l

/-- C5: `and(s)` is true iff every element of `s` is true, `or(s)` is true
iff some element of `s` is true; `and([]) = true` and `or([]) = false`. -/
theorem c5_and_or_characterization :
    (∀ l : List Bool, Fuh.and l = true ↔ ∀ x ∈ l, x = true) ∧
    (∀ l : List Bool, Fuh.or l = true ↔ ∃ x ∈ l, x = true) ∧
    Fuh.and [] = true ∧ Fuh.or [] = false := by
  refine ⟨fun l => ?_, fun l => ?_, rfl, rfl⟩
  · rw [Fuh.and, Fuh.fold_and_eq]
    simp
  · rw [Fuh.or, Fuh.fold_or_eq]
    simp

/-- C7: `reverse` is an involution: `reverse(reverse(s)) = s`. -/
theorem c7_reverse_involution :
    ∀ (α : Type) (l : List α), Fuh.reverse (Fuh.reverse l) = l := by
  intro α l
  rw [Fuh.reverse_eq, Fuh.reverse_eq, List.reverse_reverse]

/-! ### Helper lemmas about `Paper.fold` and its derived operations -/

theorem Paper.fold_pair (l : List Int) :
    ∀ (a : Int) (n : Nat),
      Paper.fold (fun x p => (p.1 + x, p.2 + 1)) (a, n) l
        = (Paper.fold (fun x s => s + x) a l, Paper.fold (fun _ m => m + 1) n l) := by
  induction l with
  | nil => intro a n; rfl
  | cons x xs ih => intro a n; simpa [Paper.fold] using ih (a + x) (n + 1)

theorem Paper.fold_add_right (l : List Int) :
    ∀ a : Int, Paper.fold (fun x s => s + x) a l = a + l.sum := by
  induction l with
  | nil => intro a; simp [Paper.fold]
  | cons x xs ih =>
    intro a
    rw [Paper.fold, ih (a + x), List.sum_cons]
    ring

theorem Paper.fold_add_left (l : List Int) :
    ∀ a : Int, Paper.fold (fun x s => x + s) a l = a + l.sum := by
  induction l with
  | nil => intro a; simp [Paper.fold]
  | cons x xs ih =>
    intro a
    rw [Paper.fold, ih (x + a), List.sum_cons]
    ring

theorem Paper.fold_succ_right (l : List α) :
    ∀ n : Nat, Paper.fold (fun _ m => m + 1) n l = n + l.length := by
  induction l with
  | nil => intro n; simp [Paper.fold]
  | cons x xs ih => intro n; rw [Paper.fold, ih (n + 1)]; simp; omega

theorem Paper.fold_succ_left (l : List α) :
    ∀ n : Nat, Paper.fold (fun _ m => 1 + m) n l = n + l.length := by
  induction l with
  | nil => intro n; simp [Paper.fold]
  | cons x xs ih => intro n; rw [Paper.fold, ih (1 + n)]; simp; omega

theorem Paper.length_eq (l : List α) : Paper.length l = l.length := by
  simpa using Paper.fold_succ_left l 0

theorem Paper.fold_push_eq (f : α → β) (l : List α) :
    ∀ acc, Paper.fold (fun x a => a ++ [f x]) acc l = acc ++ l.map f := by
  induction l with
  | nil => intro acc; simp [Paper.fold]
  | cons x xs ih => intro acc; simp [Paper.fold, ih]

theorem Paper.map_eq (f : α → β) (l : List α) : Paper.map f l = l.map f := by
  simpa using Paper.fold_push_eq f l []

theorem Paper.fold_filter_eq (p : α → Bool) (l : List α) :
    ∀ acc, Paper.fold (fun x a => if p x then a ++ [x] else a) acc l
      = acc ++ l.filter p := by
  induction l with
  | nil => intro acc; simp [Paper.fold]
  | cons x xs ih =>
    intro acc
    rw [Paper.fold, ih, List.filter_cons]
    cases hp : p x <;> simp [hp]

theorem Paper.filter_eq (p : α → Bool) (l : List α) :
    Paper.filter p l = l.filter p := by
  simpa using Paper.fold_filter_eq p l []

/-! ### Claim theorems for `src/paper/mod.rs` -/

/-- C6: the single-traversal `sumlength` agrees with the pair of separate
traversals `(sum, length)`, for the machine-integer value type. -/
theorem c6_sumlength_consistency :
    ∀ l : List Int, Paper.sumlength l = (Paper.sum l, Paper.length l) := by
  intro l
  rw [Paper.sumlength, Paper.sum, Paper.length]
  show Paper.fold _ ((default : Int), 0) l = _
  rw [Paper.fold_pair l default 0, Paper.fold_add_right, Paper.fold_add_left,
    Paper.fold_succ_right, Paper.fold_succ_left]

/-- C8: `map(f, s)` preserves length (measured by the repository's own
`length`) and order: the i-th output slot holds `f` of the i-th input slot
(and both sides are absent for out-of-range i). -/
theorem c8_map_preserves_length_order :
    ∀ (α β : Type) (f : α → β) (l : List α),
      Paper.length (Paper.map f l) = Paper.length l ∧
      ∀ i : Nat, (Paper.map f l).get? i = (l.get? i).map f := by
  intro α β f l
  constructor
  · rw [Paper.length_eq, Paper.length_eq, Paper.map_eq, List.length_map]
  · intro i
    rw [Paper.map_eq]
    simp [List.get?_eq_getElem?, List.getElem?_map]

/-- C9: `filter(p, s)` is idempotent, and its output is exactly the
order-and-value-preserving selection of the elements of `s` satisfying `p`
(the standard `List.filter`). -/
theorem c9_filter_idempotent_order_preserving :
    ∀ (α : Type) (p : α → Bool) (l : List α),
      Paper.filter p (Paper.filter p l) = Paper.filter p l ∧
      Paper.filter p l = l.filter p := by
  intro α p l
  refine ⟨?_, Paper.filter_eq p l⟩
  rw [Paper.filter_eq, Paper.filter_eq, List.filter_filter]
  simp

/-! ### Helper lemmas about the virtual machine -/

theorem VM.execute_total_frame {T : Type} [Add T] (cpu : VM.BasicCPU T)
    (h : cpu.registers.length = 3) (i : VM.BasicIsa T) :
    ∃ cpu' : VM.BasicCPU T, VM.execute cpu i = some cpu' ∧
      cpu'.registers.length = 3 ∧
      cpu'.registers.get? (VM.usizeFrom (VM.destReg i)) = VM.destVal cpu.registers i ∧
      ∀ j : Nat, j ≠ VM.usizeFrom (VM.destReg i) →
        cpu'.registers.get? j = cpu.registers.get? j := by
  obtain ⟨regs⟩ := cpu
  simp only at h
  rcases regs with _ | ⟨x, _ | ⟨y, _ | ⟨z, _ | ⟨w, tl⟩⟩⟩⟩
  · simp at h
  · simp at h
  · simp at h
  · cases i with
    | ADD a b c =>
      cases a <;> cases b <;> cases c <;>
        refine ⟨_, rfl, rfl, rfl, ?_⟩ <;>
        · intro j hj
          rcases j with _ | (_ | (_ | j)) <;> first | rfl | exact absurd rfl hj
    | COPY a b =>
      cases a <;> cases b <;>
        refine ⟨_, rfl, rfl, rfl, ?_⟩ <;>
        · intro j hj
          rcases j with _ | (_ | (_ | j)) <;> first | rfl | exact absurd rfl hj
    | SET v b =>
      cases b <;>
        refine ⟨_, rfl, rfl, rfl, ?_⟩ <;>
        · intro j hj
          rcases j with _ | (_ | (_ | j)) <;> first | rfl | exact absurd rfl hj
  · simp at h

theorem VM.foldl_bind_none {T : Type} [Add T] (l : List (VM.BasicIsa T)) :
    l.foldl (fun acc i => acc.bind (fun c => VM.execute c i)) none = none := by
  induction l with
  | nil => rfl
  | cons i rest ih => simpa [List.foldl] using ih

theorem VM.executes_eq_seq {T : Type} [Add T] (l : List (VM.BasicIsa T)) :
    ∀ cpu : VM.BasicCPU T, VM.executes cpu l = VM.executeSeq cpu l := by
  induction l with
  | nil => intro cpu; rfl
  | cons i rest ih =>
    intro cpu
    rw [VM.executes, VM.executeSeq, List.foldl]
    cases hx : VM.execute cpu i with
    | none => simpa [hx] using VM.foldl_bind_none rest
    | some c => simpa [hx] using ih c

/-! ### Claim theorems for `src/virtual_machine/mod.rs` -/

/-- C1: on every 3-slot state, `execute` succeeds (no panic) and changes only
the destination slot: the destination holds `Add`'s sum / `Copy`'s source
value / `Set`'s immediate, computed from the registers of the *pre*-state
(so source reads see old values even when source and destination coincide),
and every other slot is unchanged. -/
theorem c1_execute_frame_effect {T : Type} [Add T] (cpu : VM.BasicCPU T)
    (h : cpu.registers.length = 3) (i : VM.BasicIsa T) :
    ∃ cpu' : VM.BasicCPU T, VM.execute cpu i = some cpu' ∧
      cpu'.registers.length = 3 ∧
      cpu'.registers.get? (VM.usizeFrom (VM.destReg i)) = VM.destVal cpu.registers i ∧
      ∀ j : Nat, j ≠ VM.usizeFrom (VM.destReg i) →
        cpu'.registers.get? j = cpu.registers.get? j :=
  VM.execute_total_frame cpu h i

/-- Witness for C1: instantiation at state `[1, 2, 0]` and `ADD A A C`
(a source register coinciding with itself, destination distinct). -/
theorem c1_execute_frame_effect_witness :
    ((⟨[1, 2, 0]⟩ : VM.BasicCPU Int).registers.length = 3) ∧
    ∃ cpu' : VM.BasicCPU Int,
      VM.execute (⟨[1, 2, 0]⟩ : VM.BasicCPU Int) (VM.BasicIsa.ADD .A .A .C) = some cpu' ∧
      cpu'.registers.length = 3 ∧
      cpu'.registers.get? (VM.usizeFrom (VM.destReg (VM.BasicIsa.ADD (T := Int) .A .A .C)))
        = VM.destVal (⟨[1, 2, 0]⟩ : VM.BasicCPU Int).registers (VM.BasicIsa.ADD .A .A .C) ∧
      ∀ j : Nat, j ≠ VM.usizeFrom (VM.destReg (VM.BasicIsa.ADD (T := Int) .A .A .C)) →
        cpu'.registers.get? j = (⟨[1, 2, 0]⟩ : VM.BasicCPU Int).registers.get? j :=
  ⟨rfl, c1_execute_frame_effect ⟨[1, 2, 0]⟩ rfl (VM.BasicIsa.ADD .A .A .C)⟩

/-- C2: batch execution `executes` equals the sequential one-instruction-at-
a-time application of `execute` left to right; on the empty sequence it
returns the input state; and from `[1, 0, 0]`, five `ADD A C C` followed by
`COPY C B` yield `[1, 5, 5]`. -/
theorem c2_executes_equals_sequential :
    (∀ (T : Type) [Add T] (cpu : VM.BasicCPU T) (l : List (VM.BasicIsa T)),
      VM.executes cpu l = VM.executeSeq cpu l) ∧
    (∀ (T : Type) [Add T] (cpu : VM.BasicCPU T),
      VM.executes cpu ([] : List (VM.BasicIsa T)) = some cpu) ∧
    VM.executes (⟨[1, 0, 0]⟩ : VM.BasicCPU Int)
      (List.replicate 5 (VM.BasicIsa.ADD .A .C .C) ++ [VM.BasicIsa.COPY .C .B])
      = some ⟨[1, 5, 5]⟩ := by
  refine ⟨fun T _ cpu l => VM.executes_eq_seq l cpu, fun T _ cpu => rfl, ?_⟩
  rfl

/-- C10: the register-name → slot-index map sends A, B, C to 0, 1, 2, is
injective (and total, being a Lean function), lands strictly below the
register-file size 3, and consequently `execute` never reaches the
out-of-bounds/panic branch on a 3-slot state. -/
theorem c10_register_mapping_total_injective_safe :
    (VM.usizeFrom .A = 0 ∧ VM.usizeFrom .B = 1 ∧ VM.usizeFrom .C = 2) ∧
    Function.Injective VM.usizeFrom ∧
    (∀ r : VM.BasicRegister, VM.usizeFrom r < 3) ∧
    (∀ (T : Type) [Add T] (cpu : VM.BasicCPU T) (i : VM.BasicIsa T),
      cpu.registers.length = 3 → ∃ cpu', VM.execute cpu i = some cpu') := by
  refine ⟨⟨rfl, rfl, rfl⟩, ?_, ?_, ?_⟩
  · intro r s hrs
    cases r <;> cases s <;> first | rfl | (simp [VM.usizeFrom] at hrs)
  · intro r; cases r <;> decide
  · intro T _ cpu i h
    obtain ⟨cpu', hc, -⟩ := VM.execute_total_frame cpu h i
    exact ⟨cpu', hc⟩

/-- Witness for C10: the in-bounds hypothesis discharged at the concrete
3-slot state `[0, 0, 0]` with instruction `SET 7 B`. -/
theorem c10_register_mapping_witness :
    ((⟨[0, 0, 0]⟩ : VM.BasicCPU Int).registers.length = 3) ∧
    ∃ cpu', VM.execute (⟨[0, 0, 0]⟩ : VM.BasicCPU Int) (VM.BasicIsa.SET 7 .B) = some cpu' :=
  ⟨rfl, c10_register_mapping_total_injective_safe.2.2.2 Int ⟨[0, 0, 0]⟩
    (VM.BasicIsa.SET 7 .B) rfl⟩
